import Mathlib

/-!
Shallow embedding of the tailing-and-fan-out core of the repository
(src/ssx_online/filewatcher.py), together with theorems checking the
specification claims against it.

Conventions of the embedding:
- Python machine state is passed explicitly; every mutating method becomes a
  function from state to state.
- Python exceptions are modelled with Except; an exception that a method
  catches internally never appears in its result type.
- numpy integer arrays are modelled as Lists of records holding exact
  integers (the repository stores small file numbers and spot counts, far
  below any precision boundary); np.empty allocation is modelled by
  List.replicate with a default element, and the uninitialised region beyond
  data_entries is never read by any modelled operation.
- json.loads is standard-library code outside this repository: a raw line is
  therefore represented by its decode outcome, Option JVal, where none is a
  json.JSONDecodeError and some v is the decoded JSON value.
-/

namespace SsxOnline

/-- Decoded JSON values, as produced by json.loads: objects become key/value
lists with distinct keys (Python dicts), numbers are taken as exact integers. -/
inductive JVal where
  | null
  | bool (b : Bool)
  | num (n : Int)
  | str (s : String)
  | arr (elems : List JVal)
  | obj (fields : List (String × JVal))

/-- The Python exceptions that the modelled code can raise or catch. -/
inductive PyExc where
  | jsonDecodeError
  | keyError
  | typeError
  | valueError
deriving Repr, DecidableEq

/-- One stored record: the three integer columns of a PIAWatcher data row
(file-number, n_spots_total, n_spots_4A). -/
structure Rec where
  file_number : Int
  n_spots_total : Int
  n_spots_4A : Int
deriving Repr, DecidableEq, Inhabited

/-- Combined state of one PIAWatcher: the listener set and notification count
from FileWatcherEmitter, and the record buffer from PIAWatcher. Listener
channels are identified by Nat ids; queues gives the pending integer deltas
of each channel. listeners models a Python set, so it is kept duplicate-free
by add_listener. -/
structure WatcherState where
  listeners : List Nat
  queues : Nat → List Int
  item_count : Nat
  data : List Rec
  data_entries : Nat

/-- Python dict lookup on a decoded JSON object field list. -/
def jlookup (key : String) : List (String × JVal) → Option JVal
  | [] => none
  | (k, v) :: rest => if k = key then some v else jlookup key rest

/-- Python subscript data[key] for a string key: KeyError when a dict lacks
the key, TypeError when the value is not a dict at all. -/
def pyGetItem (v : JVal) (key : String) : Except PyExc JVal :=
  match v with
  | .obj fields =>
    match jlookup key fields with
    | some x => .ok x
    | none => .error .keyError
  | _ => .error .typeError

/-- Conversion applied when a decoded JSON value is written into a row of the
dtype=int numpy buffer: integers pass through, booleans coerce to 0/1, every
other JSON value raises (strings a ValueError, the rest a TypeError). -/
def npIntOf (v : JVal) : Except PyExc Int :=
  match v with
  | .num n => .ok n
  | .bool b => .ok (if b then 1 else 0)
  | .str _ => .error .valueError
  | _ => .error .typeError

/-- The successful tail of PIAWatcher.process_line: write the row at index
data_entries, bump the count, and grow the buffer by 10000 rows when it is
now full (new_data receives a copy of every current row; the fresh
uninitialised region is modelled by default values, never read). -/
def piaAppend (st : WatcherState) (r : Rec) : WatcherState :=
  let d1 := st.data.set st.data_entries r
  let e1 := st.data_entries + 1
  if e1 = d1.length then
    { st with data := d1 ++ List.replicate 10000 (default : Rec), data_entries := e1 }
  else
    { st with data := d1, data_entries := e1 }

/-- The try block of process_line past a successful decode: evaluate the
three subscripts left to right (KeyError when a dict lacks a field, TypeError
when data is not a dict at all), then the integer conversions the row write
performs. The caught-KeyError outcome is .ok none; every other exception
escapes. -/
def parseRec (data : JVal) : Except PyExc (Option Rec) :=
  match pyGetItem data "file-number" with
  | .error .keyError => .ok none
  | .error e => .error e
  | .ok v1 =>
    match pyGetItem data "n_spots_total" with
    | .error .keyError => .ok none
    | .error e => .error e
    | .ok v2 =>
      match pyGetItem data "n_spots_4A" with
      | .error .keyError => .ok none
      | .error e => .error e
      | .ok v3 =>
        match npIntOf v1, npIntOf v2, npIntOf v3 with
        | .ok a, .ok b, .ok c => .ok (some ⟨a, b, c⟩)
        | .error e, _, _ => .error e
        | _, .error e, _ => .error e
        | _, _, .error e => .error e

/-- PIAWatcher.process_line. The decode outcome of the line is the input:
none is a json.JSONDecodeError, caught and answered with 0; a KeyError from a
missing field is caught and answered with 0; a TypeError from subscripting a
non-dict, or a conversion error while storing the row, escapes. -/
def process_line (st : WatcherState) (line : Option JVal) :
    Except PyExc (WatcherState × Nat) :=
  match line with
  | none => .ok (st, 0)
  | some data =>
    match parseRec data with
    | .error e => .error e
    | .ok none => .ok (st, 0)
    | .ok (some r) => .ok (piaAppend st r, 1)

/-- PIAWatcher.__init__ plus FileWatcherEmitter.__init__: empty listener set,
zero notification count, a preallocated 26000-row buffer, zero entries. -/
def piaInit : WatcherState :=
  { listeners := []
    queues := fun _ => []
    item_count := 0
    data := List.replicate 26000 (default : Rec)
    data_entries := 0 }

/-- The valid region of the store, self._data sliced to self._data_entries. -/
def storeSlice (st : WatcherState) : List Rec :=
  st.data.take st.data_entries

/-- queue.put_nowait(v) on channel l of a queue map: the channel never
blocks or rejects, since asyncio queues are unbounded here. -/
def putNowait (v : Int) (q : Nat → List Int) (l : Nat) : Nat → List Int :=
  fun c => if c = l then q c ++ [v] else q c

/-- FileWatcherEmitter.add_listener: add the channel to the listener set (a
Python set, hence duplicate-free), then, if the requested index is below the
current item count, synchronously enqueue the difference into that channel.
from_index is a Python int and may be negative. -/
def add_listener (st : WatcherState) (listener : Nat) (from_index : Int) :
    WatcherState :=
  let st :=
    { st with
      listeners :=
        if listener ∈ st.listeners then st.listeners
        else st.listeners ++ [listener] }
  if from_index < (st.item_count : Int) then
    { st with
      queues := putNowait ((st.item_count : Int) - from_index) st.queues listener }
  else st

/-- The broadcast loop of FileWatcherEmitter._consume_results: one
put_nowait of new_items into each channel of the listener set, in turn. -/
def broadcast (st : WatcherState) (new_items : Nat) : WatcherState :=
  { st with
    queues := st.listeners.foldl (putNowait (new_items : Int)) st.queues }

/-- The inner accumulation of _consume_results over one batch of lines:
thread process_line over the lines, summing the returned counts. An escaping
exception aborts the loop; the error carries the state as mutated by the
lines already processed (an exception in process_line itself leaves the
state unchanged, since the row write happens past the valid region). -/
def processLines :
    WatcherState → List (Option JVal) → Except WatcherState (WatcherState × Nat)
  | st, [] => .ok (st, 0)
  | st, l :: ls =>
    match process_line st l with
    | .error _ => .error st
    | .ok (st', n) =>
      match processLines st' ls with
      | .error stE => .error stE
      | .ok (st'', m) => .ok (st'', n + m)

/-- One iteration of FileWatcherEmitter._consume_results for one yielded
batch: accumulate the per-line counts, add them to _item_count, and when the
total is positive push it into every listener channel. An exception escaping
process_line kills the loop before _item_count is updated or anything is
broadcast. -/
def consumeBatch (st : WatcherState) (batch : List (Option JVal)) :
    Except WatcherState WatcherState :=
  match processLines st batch with
  | .error stE => .error stE
  | .ok (st', n) =>
    .ok (if 0 < n then broadcast { st' with item_count := st'.item_count + n } n
         else { st' with item_count := st'.item_count + n })

/-- The process-wide watcher registry FileWatcherEmitter._watchers, flattened
to one table keyed by (watcher kind, path); kinds are class identities,
modelled as Nat ids, and watcher instances are identified by the Nat id they
were created with. next_id is the identity the next construction takes. -/
structure Registry where
  table : List ((Nat × String) × Nat)
  next_id : Nat
deriving Repr, DecidableEq

/-- Python dict lookup on the registry table. -/
def rlookup (key : Nat × String) : List ((Nat × String) × Nat) → Option Nat
  | [] => none
  | (k, v) :: rest => if k = key then some v else rlookup key rest

/-- FileWatcherEmitter.get_watcher_for_file: return the stored instance for
(kind, filename) when present; otherwise construct a fresh one, store it and
return it. -/
def get_watcher_for_file (reg : Registry) (kind : Nat) (filename : String) :
    Registry × Nat :=
  match rlookup (kind, filename) reg.table with
  | some w => (reg, w)
  | none =>
    ({ table := reg.table ++ [((kind, filename), reg.next_id)]
       next_id := reg.next_id + 1 },
     reg.next_id)

/-! ### The line tailer

FileLineReader.read_lines_continuous, modelled over texts whose only line
terminator is the newline character (the case exercised by the JSON-lines
files this repository tails; Python str.splitlines recognises further exotic
terminators that never occur here). A text is a list of characters; a run of
the tailer is driven by the sequence of nonempty strings the successive
f.read() calls return. -/

/-- Text as a character list. -/
abbrev Text := List Char

/-- Python data.splitlines(keepends=True) restricted to newline terminators:
cut after every newline, keeping it; a trailing unterminated segment stays. -/
def splitKeep (acc : Text) : Text → List Text
  | [] => if acc.isEmpty then [] else [acc.reverse]
  | c :: rest =>
    if c = '\n' then (acc.reverse ++ [c]) :: splitKeep [] rest
    else splitKeep (c :: acc) rest

/-- One pass of the inner read loop body of read_lines_continuous for one
nonempty chunk returned by f.read(): split into kept-ends lines, prefix the
buffered fragment onto the first line when the chunk contains a newline,
then peel off an unterminated last line into the buffer. Returns the new
buffered fragment and the lines yielded for this chunk. -/
def tailStep (pt : Text) (data : Text) : Text × List Text :=
  if data.isEmpty then (pt, [])
  else
    let lines0 := splitKeep [] data
    let pl :=
      if '\n' ∈ data then ((pt ++ lines0.headD []) :: lines0.tail, ([] : Text))
      else (lines0, pt)
    if data.getLast? ≠ some '\n' then (pl.1.getLastD [], pl.1.dropLast)
    else (pl.2, pl.1)

/-- Run the tailer over a sequence of read chunks, starting from a buffered
fragment; returns the final fragment and every line yielded, in order. -/
def tailRun (pt : Text) : List Text → Text × List Text
  | [] => (pt, [])
  | d :: rest =>
    let (pt', out) := tailStep pt d
    let (ptF, outs) := tailRun pt' rest
    (ptF, out ++ outs)

/-- All lines the tailer emits over a run started with an empty buffer. -/
def tailEmit (chunks : List Text) : List Text :=
  (tailRun [] chunks).2

/-- Modelled from the spec: the complete (newline-terminated) lines of a
text, in order — the lines the spec says the tailer must emit. This is the
spec-side reference the tailer is compared against, not code of the
repository. -/
def specCompleteLines (t : Text) : List Text :=
  (splitKeep [] t).filter (fun l => l.getLast? = some '\n')

/-! ### The listener wait -/

/-- Outcome of one awaited chunk: either the distinct timeout signal, or a
delivery of records. -/
inductive ChunkResult where
  | timeout
  | data (recs : List Rec)
deriving Repr, DecidableEq

/-- Python slice xs[start:] for a possibly negative start. -/
def pySliceFrom (xs : List Rec) (start : Int) : List Rec :=
  if 0 ≤ start then xs.drop start.toNat
  else xs.drop (xs.length - (-start).toNat)

/-- asyncio.wait_for(listener.get_data_chunk(), timeout) as used by
_emit_lines_to_client: the scheduling environment either delivers a count
from the listener queue within the window (some count) or does not (none);
a timeout becomes the distinct asyncio.TimeoutError signal, a delivery
returns self._watcher[-count:], the tail of the valid store region. -/
def await_next_chunk (w : WatcherState) (delivery : Option Int) : ChunkResult :=
  match delivery with
  | none => .timeout
  | some count => .data (pySliceFrom (storeSlice w) (-count))

/-- Encoding of a record as the JSON-lines object the parser expects; used
to state round-trip properties of process_line on well-formed lines. -/
def recToJson (r : Rec) : JVal :=
  .obj
    [("file-number", .num r.file_number),
     ("n_spots_total", .num r.n_spots_total),
     ("n_spots_4A", .num r.n_spots_4A)]

/-- The queue-positivity invariant: every pending value of every listener
channel is strictly positive. -/
def AllPos (st : WatcherState) : Prop :=
  ∀ ch v, v ∈ st.queues ch → 0 < v

/-- A small concrete watcher state exercising the claims: one registered
channel 0, two stored records, counts in sync, buffer capacity 4. -/
def wTest : WatcherState :=
  { listeners := [0]
    queues := fun _ => []
    item_count := 2
    data := [⟨1, 10, 4⟩, ⟨2, 20, 6⟩, default, default]
    data_entries := 2 }

/-- A fresh concrete watcher state with no listeners and an empty store. -/
def c7Start : WatcherState :=
  { listeners := []
    queues := fun _ => []
    item_count := 0
    data := [default, default]
    data_entries := 0 }

/-- A one-line batch of well-formed input. -/
def c4Batch : List (Option JVal) := [some (recToJson ⟨3, 30, 8⟩)]

/-- The state the watcher loop reaches from wTest on c4Batch. -/
def c4Final : WatcherState :=
  broadcast { piaAppend wTest ⟨3, 30, 8⟩ with item_count := 3 } 1

/-- A small concrete registry holding one watcher. -/
def regTest : Registry := { table := [((0, "a"), 5)], next_id := 6 }

/-! ### Helper lemmas about lists -/

theorem take_set_succ {α : Type} :
    ∀ (l : List α) (e : Nat) (r : α), e < l.length →
      (l.set e r).take (e + 1) = l.take e ++ [r]
  | [], _, _, h => by simp at h
  | _ :: _, 0, _, _ => by simp
  | a :: l, e + 1, r, h => by
    have h' : e < l.length := by
      simpa using Nat.lt_of_succ_lt_succ h
    simp [List.set, take_set_succ l e r h']

theorem set_past {α : Type} :
    ∀ (l : List α) (e : Nat) (r : α), l.length ≤ e → l.set e r = l
  | [], _, _, _ => rfl
  | _ :: _, 0, _, h => by simp at h
  | a :: l, e + 1, r, h => by
    have h' : l.length ≤ e := by simpa using Nat.le_of_succ_le_succ h
    simp [List.set, set_past l e r h']

theorem take_full {α : Type} :
    ∀ (l : List α) (n : Nat), l.length ≤ n → l.take n = l
  | [], _, _ => by simp
  | _ :: _, 0, h => by simp at h
  | a :: l, n + 1, h => by
    have h' : l.length ≤ n := by simpa using Nat.le_of_succ_le_succ h
    simp [List.take, take_full l n h']

theorem take_append_left {α : Type} :
    ∀ (l₁ l₂ : List α) (n : Nat), n ≤ l₁.length → (l₁ ++ l₂).take n = l₁.take n
  | _, _, 0, _ => by simp
  | [], _, n + 1, h => by simp at h
  | a :: l, l₂, n + 1, h => by
    have h' : n ≤ l.length := by simpa using Nat.le_of_succ_le_succ h
    simp [List.take, take_append_left l l₂ n h']

/-! ### Helper lemmas about the store and the parser -/

theorem piaAppend_frame (st : WatcherState) (r : Rec) :
    (piaAppend st r).listeners = st.listeners ∧
    (piaAppend st r).queues = st.queues ∧
    (piaAppend st r).item_count = st.item_count ∧
    (piaAppend st r).data_entries = st.data_entries + 1 := by
  unfold piaAppend
  dsimp only
  split <;> simp

theorem storeSlice_piaAppend (st : WatcherState) (r : Rec)
    (h : st.data_entries < st.data.length) :
    storeSlice (piaAppend st r) = storeSlice st ++ [r] := by
  unfold piaAppend storeSlice
  dsimp only
  split
  · next heq =>
    rw [take_append_left _ _ _ (Nat.le_of_eq heq)]
    exact take_set_succ _ _ _ h
  · exact take_set_succ _ _ _ h

theorem inv_piaAppend (st : WatcherState) (r : Rec)
    (h : st.data_entries < st.data.length) :
    (piaAppend st r).data_entries < (piaAppend st r).data.length := by
  unfold piaAppend
  dsimp only
  split
  · next heq =>
    simp only [List.length_append, List.length_replicate, List.length_set]
    omega
  · next hne =>
    simp only [List.length_set] at hne ⊢
    omega

theorem storeSlice_piaAppend_any (st : WatcherState) (r : Rec) :
    ∃ rest, storeSlice (piaAppend st r) = storeSlice st ++ rest := by
  by_cases h : st.data_entries < st.data.length
  · exact ⟨[r], storeSlice_piaAppend st r h⟩
  · have hle : st.data.length ≤ st.data_entries := Nat.le_of_not_lt h
    refine ⟨[], ?_⟩
    unfold piaAppend storeSlice
    dsimp only
    rw [set_past _ _ _ hle]
    split
    · next heq => omega
    · rw [take_full _ _ (Nat.le_succ_of_le hle), take_full _ _ hle, List.append_nil]

theorem process_line_ok {st : WatcherState} {d : Option JVal}
    {st' : WatcherState} {n : Nat}
    (h : process_line st d = .ok (st', n)) :
    st'.listeners = st.listeners ∧ st'.queues = st.queues ∧
    st'.item_count = st.item_count ∧
    st'.data_entries = st.data_entries + n ∧
    (∃ rest, storeSlice st' = storeSlice st ++ rest) := by
  unfold process_line at h
  split at h
  · simp only [Except.ok.injEq, Prod.mk.injEq] at h
    obtain ⟨h1, h2⟩ := h
    subst h1; subst h2
    exact ⟨rfl, rfl, rfl, rfl, [], by simp⟩
  · split at h
    · simp at h
    · simp only [Except.ok.injEq, Prod.mk.injEq] at h
      obtain ⟨h1, h2⟩ := h
      subst h1; subst h2
      exact ⟨rfl, rfl, rfl, rfl, [], by simp⟩
    · simp only [Except.ok.injEq, Prod.mk.injEq] at h
      obtain ⟨h1, h2⟩ := h
      subst h1; subst h2
      obtain ⟨f1, f2, f3, f4⟩ := piaAppend_frame st _
      exact ⟨f1, f2, f3, f4, storeSlice_piaAppend_any st _⟩

theorem putNowait_self (v : Int) (q : Nat → List Int) (l : Nat) :
    putNowait v q l l = q l ++ [v] := by
  simp [putNowait]

theorem putNowait_other (v : Int) (q : Nat → List Int) (l c : Nat)
    (h : c ≠ l) : putNowait v q l c = q c := by
  simp [putNowait, h]

theorem foldl_putNowait_not_mem :
    ∀ (L : List Nat) (q : Nat → List Int) (v : Int) (ch : Nat), ch ∉ L →
      L.foldl (putNowait v) q ch = q ch
  | [], _, _, _, _ => rfl
  | l :: L, q, v, ch, h => by
    have h1 : ch ≠ l := fun he => h (he ▸ List.mem_cons_self l L)
    have h2 : ch ∉ L := fun hm => h (List.mem_cons_of_mem _ hm)
    simp only [List.foldl_cons]
    rw [foldl_putNowait_not_mem L _ v ch h2, putNowait_other v q l ch h1]

theorem foldl_putNowait_mem :
    ∀ (L : List Nat) (q : Nat → List Int) (v : Int) (ch : Nat),
      L.Nodup → ch ∈ L → L.foldl (putNowait v) q ch = q ch ++ [v]
  | [], _, _, _, _, hm => absurd hm (List.not_mem_nil _)
  | l :: L, q, v, ch, hnd, hm => by
    simp only [List.foldl_cons]
    rcases List.mem_cons.mp hm with he | hmem
    · subst he
      have hnin : ch ∉ L := (List.nodup_cons.mp hnd).1
      rw [foldl_putNowait_not_mem L _ v ch hnin, putNowait_self]
    · have hne : ch ≠ l := fun he => by
        subst he
        exact (List.nodup_cons.mp hnd).1 hmem
      rw [foldl_putNowait_mem L _ v ch (List.nodup_cons.mp hnd).2 hmem,
        putNowait_other v q l ch hne]

theorem mem_foldl_putNowait :
    ∀ (L : List Nat) (q : Nat → List Int) (v : Int) (ch : Nat) (x : Int),
      x ∈ L.foldl (putNowait v) q ch → x ∈ q ch ∨ x = v
  | [], _, _, _, _, h => .inl h
  | l :: L, q, v, ch, x, h => by
    simp only [List.foldl_cons] at h
    rcases mem_foldl_putNowait L _ v ch x h with hin | he
    · unfold putNowait at hin
      by_cases hc : ch = l
      · rw [if_pos hc] at hin
        rcases List.mem_append.mp hin with h1 | h2
        · exact .inl h1
        · exact .inr (List.mem_singleton.mp h2)
      · rw [if_neg hc] at hin
        exact .inl hin
    · exact .inr he

theorem broadcast_frame (st : WatcherState) (n : Nat) :
    (broadcast st n).listeners = st.listeners ∧
    (broadcast st n).item_count = st.item_count ∧
    (broadcast st n).data_entries = st.data_entries ∧
    (broadcast st n).data = st.data :=
  ⟨rfl, rfl, rfl, rfl⟩

theorem processLines_ok {batch : List (Option JVal)} :
    ∀ {st st' : WatcherState} {n : Nat},
      processLines st batch = .ok (st', n) →
      st'.listeners = st.listeners ∧ st'.queues = st.queues ∧
      st'.item_count = st.item_count ∧
      st'.data_entries = st.data_entries + n ∧
      (∃ rest, storeSlice st' = storeSlice st ++ rest) := by
  induction batch with
  | nil =>
    intro st st' n h
    simp only [processLines, Except.ok.injEq, Prod.mk.injEq] at h
    obtain ⟨h1, h2⟩ := h
    subst h1; subst h2
    exact ⟨rfl, rfl, rfl, rfl, [], by simp⟩
  | cons l ls ih =>
    intro st st' n h
    simp only [processLines] at h
    split at h
    · simp at h
    · next stM m hline =>
      split at h
      · simp at h
      · next stE k hrest =>
        simp only [Except.ok.injEq, Prod.mk.injEq] at h
        obtain ⟨h1, h2⟩ := h
        subst h1; subst h2
        obtain ⟨a1, a2, a3, a4, r1, hr1⟩ := process_line_ok hline
        obtain ⟨b1, b2, b3, b4, r2, hr2⟩ := ih hrest
        refine ⟨b1.trans a1, b2.trans a2, b3.trans a3, by omega,
          r1 ++ r2, ?_⟩
        rw [hr2, hr1, List.append_assoc]

theorem processLines_error {batch : List (Option JVal)} :
    ∀ {st stE : WatcherState},
      processLines st batch = .error stE →
      stE.listeners = st.listeners ∧ stE.queues = st.queues ∧
      stE.item_count = st.item_count := by
  induction batch with
  | nil =>
    intro st stE h
    simp [processLines] at h
  | cons l ls ih =>
    intro st stE h
    simp only [processLines] at h
    split at h
    · simp only [Except.error.injEq] at h
      subst h
      exact ⟨rfl, rfl, rfl⟩
    · next stM m hline =>
      split at h
      · next stE' hrest =>
        simp only [Except.error.injEq] at h
        subst h
        obtain ⟨a1, a2, a3, _, _⟩ := process_line_ok hline
        obtain ⟨b1, b2, b3⟩ := ih hrest
        exact ⟨b1.trans a1, b2.trans a2, b3.trans a3⟩
      · simp at h

theorem process_line_recToJson (st : WatcherState) (r : Rec) :
    process_line st (some (recToJson r)) = .ok (piaAppend st r, 1) := rfl

theorem inv_piaInit : piaInit.data_entries < piaInit.data.length := by
  show 0 < (List.replicate 26000 (default : Rec)).length
  rw [List.length_replicate]
  omega

theorem storeSlice_piaInit : storeSlice piaInit = [] := rfl

theorem processLines_recs :
    ∀ (recs : List Rec) (st : WatcherState),
      st.data_entries < st.data.length →
      ∃ st', processLines st (recs.map fun r => some (recToJson r))
          = .ok (st', recs.length) ∧
        storeSlice st' = storeSlice st ++ recs ∧
        st'.data_entries < st'.data.length
  | [], st, h => ⟨st, rfl, by simp, h⟩
  | r :: rs, st, h => by
    obtain ⟨st', h1, h2, h3⟩ :=
      processLines_recs rs (piaAppend st r) (inv_piaAppend st r h)
    refine ⟨st', ?_, ?_, h3⟩
    · show processLines st (some (recToJson r) :: rs.map fun x => some (recToJson x))
        = .ok (st', rs.length + 1)
      simp only [processLines, process_line_recToJson st r, h1]
      rw [Nat.add_comm]
    · rw [h2, storeSlice_piaAppend st r h, List.append_assoc]
      rfl

theorem add_listener_listeners (st : WatcherState) (ch : Nat) (k : Int) :
    (add_listener st ch k).listeners =
      if ch ∈ st.listeners then st.listeners else st.listeners ++ [ch] := by
  unfold add_listener
  dsimp only
  split <;> rfl

theorem mem_add_listener (st : WatcherState) (ch : Nat) (k : Int) :
    ch ∈ (add_listener st ch k).listeners := by
  rw [add_listener_listeners]
  split
  · assumption
  · exact List.mem_append.mpr (.inr (List.mem_singleton.mpr rfl))

theorem add_listener_nodup (st : WatcherState) (ch : Nat) (k : Int)
    (h : st.listeners.Nodup) : (add_listener st ch k).listeners.Nodup := by
  rw [add_listener_listeners]
  split
  · exact h
  · next hnm =>
    rw [List.nodup_append]
    exact ⟨h, List.nodup_singleton ch,
      fun a ha hb => hnm ((List.mem_singleton.mp hb) ▸ ha)⟩

theorem add_listener_item_count (st : WatcherState) (ch : Nat) (k : Int) :
    (add_listener st ch k).item_count = st.item_count := by
  unfold add_listener
  dsimp only
  split <;> rfl

theorem broadcast_queues_mem (st : WatcherState) (n : Nat) (ch : Nat)
    (hnd : st.listeners.Nodup) (hm : ch ∈ st.listeners) :
    (broadcast st n).queues ch = st.queues ch ++ [(n : Int)] :=
  foldl_putNowait_mem _ _ _ _ hnd hm

theorem broadcast_queues_not_mem (st : WatcherState) (n : Nat) (ch : Nat)
    (hm : ch ∉ st.listeners) :
    (broadcast st n).queues ch = st.queues ch :=
  foldl_putNowait_not_mem _ _ _ _ hm

theorem parseRec_non_obj (v : JVal) (h : ∀ fs, v ≠ .obj fs) :
    parseRec v = .error .typeError := by
  cases v with
  | obj fs => exact absurd rfl (h fs)
  | null => rfl
  | bool b => rfl
  | num n => rfl
  | str s => rfl
  | arr xs => rfl

theorem parseRec_obj_missing (fs : List (String × JVal))
    (h : jlookup "file-number" fs = none ∨ jlookup "n_spots_total" fs = none ∨
      jlookup "n_spots_4A" fs = none) :
    parseRec (.obj fs) = .ok none := by
  rcases h with h1 | h2 | h3
  · dsimp only [parseRec, pyGetItem]
    rw [h1]
  · dsimp only [parseRec, pyGetItem]
    cases hf : jlookup "file-number" fs with
    | none => rfl
    | some v1 => rw [h2]
  · dsimp only [parseRec, pyGetItem]
    cases hf : jlookup "file-number" fs with
    | none => rfl
    | some v1 =>
      cases hg : jlookup "n_spots_total" fs with
      | none => rfl
      | some v2 => rw [h3]

theorem rlookup_append_self (t : List ((Nat × String) × Nat))
    (key : Nat × String) (v : Nat) (h : rlookup key t = none) :
    rlookup key (t ++ [(key, v)]) = some v := by
  induction t with
  | nil => simp [rlookup]
  | cons p t ih =>
    obtain ⟨k, w⟩ := p
    unfold rlookup at h ⊢
    split at h
    · exact absurd h (by simp)
    · next hne =>
      show (if k = key then some w else rlookup key (t ++ [(key, v)])) = some v
      rw [if_neg hne]
      exact ih h

/-! ### The claims -/

/-- C1: the claim says the emitted lines always equal the complete
newline-terminated lines of the concatenated text, for every split into
reads. The code violates it: on the read sequence "ab", "c", "def\n" (whole
text "abcdef\n") the tailer emits the single line "cdef\n" — the fragment
buffered after the first read is overwritten rather than extended when the
following read also contains no newline, so the bytes "ab" are silently
dropped. This theorem evaluates the tailer at that failing input. -/
theorem C1_tailer_loses_buffered_fragment :
    List.flatten ["ab".toList, "c".toList, "def\n".toList] = "abcdef\n".toList ∧
    tailEmit ["ab".toList, "c".toList, "def\n".toList] = ["cdef\n".toList] ∧
    specCompleteLines ("abcdef\n".toList) = ["abcdef\n".toList] ∧
    tailEmit ["ab".toList, "c".toList, "def\n".toList]
      ≠ specCompleteLines ("abcdef\n".toList) := by
  refine ⟨?_, ?_, ?_, ?_⟩ <;> decide

/-- C2 counterexample: the line "5" is valid JSON (a bare number), so the
decode succeeds, and the subscript of the non-dict value then raises a
TypeError that no handler catches: process_line errors instead of
returning 0, refuting the claim that no malformed line lets an error
escape. -/
theorem C2_counterexample :
    process_line piaInit (some (JVal.num 5)) = .error .typeError := rfl

/-- C2 amended: process_line returns 0 without raising when the line fails
to decode or decodes to a JSON object missing one of the three required
fields; but a line decoding to a non-object JSON value raises an uncaught
TypeError that escapes the parser. -/
theorem C2_amended_malformed_lines (st : WatcherState) (d : Option JVal) :
    (d = none → process_line st d = .ok (st, 0)) ∧
    (∀ fs, d = some (.obj fs) →
      (jlookup "file-number" fs = none ∨ jlookup "n_spots_total" fs = none ∨
        jlookup "n_spots_4A" fs = none) →
      process_line st d = .ok (st, 0)) ∧
    (∀ v, d = some v → (∀ fs, v ≠ .obj fs) →
      process_line st d = .error .typeError) := by
  refine ⟨fun h => by subst h; rfl, ?_, ?_⟩
  · intro fs hd hmiss
    subst hd
    dsimp only [process_line]
    rw [parseRec_obj_missing fs hmiss]
  · intro v hd hno
    subst hd
    dsimp only [process_line]
    rw [parseRec_non_obj v hno]

theorem C2_amended_malformed_lines_witness :
    process_line piaInit (some (.obj [("file-number", .num 1)]))
      = .ok (piaInit, 0) :=
  (C2_amended_malformed_lines piaInit _).2.1 _ rfl (Or.inr (Or.inl rfl))

/-- C3: registering a channel with from_offset k when k is below the
current item count L synchronously enqueues the single value L - k into
exactly that channel (no other channel is touched); with k at or above L
nothing is enqueued by the registration. -/
theorem C3_backlog_catchup (st : WatcherState) (ch : Nat) (k : Int) :
    (k < (st.item_count : Int) →
      (add_listener st ch k).queues ch
          = st.queues ch ++ [(st.item_count : Int) - k] ∧
      ∀ c, c ≠ ch → (add_listener st ch k).queues c = st.queues c) ∧
    ((st.item_count : Int) ≤ k →
      ∀ c, (add_listener st ch k).queues c = st.queues c) := by
  unfold add_listener
  dsimp only
  constructor
  · intro hk
    rw [if_pos hk]
    exact ⟨putNowait_self _ _ _, fun c hc => putNowait_other _ _ _ _ hc⟩
  · intro hk
    rw [if_neg (not_lt.mpr hk)]
    intro c
    rfl

theorem C3_backlog_catchup_witness :
    (add_listener wTest 5 0).queues 5 = [(2 : Int)] :=
  ((C3_backlog_catchup wTest 5 0).1 (by decide)).1

/-- C4: when a batch is consumed without an escaping exception, the batch
count n is computed by the per-line parser; a positive n is pushed, exactly
once and without blocking, into every channel registered at that moment; a
zero n pushes nothing; channels outside the listener set are untouched and
the listener set itself is unchanged. -/
theorem C4_broadcast_exactly_once (st : WatcherState)
    (batch : List (Option JVal)) (stF : WatcherState)
    (hnd : st.listeners.Nodup)
    (h : consumeBatch st batch = .ok stF) :
    ∃ n stM, processLines st batch = .ok (stM, n) ∧
      stF.listeners = st.listeners ∧
      (∀ ch, ch ∈ st.listeners →
        stF.queues ch = st.queues ch ++ if 0 < n then [(n : Int)] else []) ∧
      (∀ ch, ch ∉ st.listeners → stF.queues ch = st.queues ch) := by
  unfold consumeBatch at h
  split at h
  · exact absurd h (by simp)
  · next stM n hpl =>
    simp only [Except.ok.injEq] at h
    obtain ⟨hl, hq, _, _, _⟩ := processLines_ok hpl
    refine ⟨n, stM, hpl, ?_, ?_, ?_⟩ <;> rw [← h] <;> clear h
    · split
      · exact ((broadcast_frame _ n).1).trans hl
      · exact hl
    · intro ch hm
      split
      · next hn =>
        have hnd2 : ({ stM with item_count := stM.item_count + n } :
            WatcherState).listeners.Nodup := by
          show stM.listeners.Nodup
          rw [hl]; exact hnd
        have hm2 : ch ∈ ({ stM with item_count := stM.item_count + n } :
            WatcherState).listeners := by
          show ch ∈ stM.listeners
          rw [hl]; exact hm
        rw [broadcast_queues_mem _ n ch hnd2 hm2]
        show stM.queues ch ++ _ = _
        rw [hq]
      · rw [List.append_nil]
        show stM.queues ch = st.queues ch
        rw [hq]
    · intro ch hm
      split
      · next hn =>
        have hm2 : ch ∉ ({ stM with item_count := stM.item_count + n } :
            WatcherState).listeners := by
          show ch ∉ stM.listeners
          rw [hl]; exact hm
        rw [broadcast_queues_not_mem _ n ch hm2]
        show stM.queues ch = st.queues ch
        rw [hq]
      · show stM.queues ch = st.queues ch
        rw [hq]

theorem C4_broadcast_exactly_once_witness :
    consumeBatch wTest c4Batch = .ok c4Final ∧
    c4Final.queues 0 = [(1 : Int)] ∧ c4Final.queues 1 = [] := by
  obtain ⟨n, stM, hpl, hl, hmem, hnot⟩ :=
    C4_broadcast_exactly_once wTest c4Batch c4Final (by decide) rfl
  have h2 : processLines wTest c4Batch = .ok (piaAppend wTest ⟨3, 30, 8⟩, 1) := rfl
  rw [hpl] at h2
  injection h2 with h3
  injection h3 with h4 h5
  subst h5
  refine ⟨rfl, ?_, ?_⟩
  · have hx := hmem 0 (by decide)
    rw [if_pos (by decide)] at hx
    exact hx
  · exact hnot 1 (by decide)

/-- C5: folding the parser from the initial state over any list of
well-formed record lines succeeds with count n = the number of records, and
the store's valid region afterwards is exactly those records, in append
order — growth during the folds neither reorders nor drops anything; and no
successful parser step ever mutates or removes an already stored record:
the prior valid region is always a prefix of the new one. -/
theorem C5_store_order (recs : List Rec) :
    (∃ st', processLines piaInit (recs.map fun r => some (recToJson r))
        = .ok (st', recs.length) ∧
      storeSlice st' = recs) ∧
    (∀ st d st' n, process_line st d = .ok (st', n) →
      ∃ rest, storeSlice st' = storeSlice st ++ rest) := by
  constructor
  · obtain ⟨st', h1, h2, _⟩ := processLines_recs recs piaInit inv_piaInit
    refine ⟨st', h1, ?_⟩
    rw [h2, storeSlice_piaInit, List.nil_append]
  · intro st d st' n h
    exact (process_line_ok h).2.2.2.2

theorem C5_store_order_witness :
    ∃ rest, storeSlice piaInit = storeSlice piaInit ++ rest :=
  (C5_store_order []).2 piaInit none piaInit 0 rfl

/-- C6: the registry lookup is total and idempotent: a hit returns the
stored watcher and leaves the registry unchanged; a miss constructs the
fresh watcher, stores it under the key and returns it; and repeating a
lookup for the same (kind, path) returns exactly the pair the first lookup
produced, constructing nothing new. -/
theorem C6_registry_idempotent (reg : Registry) (kind : Nat) (path : String) :
    (∀ w, rlookup (kind, path) reg.table = some w →
      get_watcher_for_file reg kind path = (reg, w)) ∧
    (rlookup (kind, path) reg.table = none →
      get_watcher_for_file reg kind path
        = ({ table := reg.table ++ [((kind, path), reg.next_id)],
             next_id := reg.next_id + 1 }, reg.next_id)) ∧
    (get_watcher_for_file (get_watcher_for_file reg kind path).1 kind path
        = get_watcher_for_file reg kind path) := by
  refine ⟨?_, ?_, ?_⟩
  · intro w hw
    unfold get_watcher_for_file
    rw [hw]
  · intro hn
    unfold get_watcher_for_file
    rw [hn]
  · cases hl : rlookup (kind, path) reg.table with
    | some w =>
      have h1 : get_watcher_for_file reg kind path = (reg, w) := by
        unfold get_watcher_for_file
        rw [hl]
      rw [h1]
      unfold get_watcher_for_file
      rw [hl]
    | none =>
      have h1 : get_watcher_for_file reg kind path
          = ({ table := reg.table ++ [((kind, path), reg.next_id)],
               next_id := reg.next_id + 1 }, reg.next_id) := by
        unfold get_watcher_for_file
        rw [hl]
      rw [h1]
      unfold get_watcher_for_file
      dsimp only
      rw [rlookup_append_self reg.table (kind, path) reg.next_id hl]

theorem C6_registry_idempotent_witness :
    get_watcher_for_file regTest 0 "a" = (regTest, 5) :=
  (C6_registry_idempotent regTest 0 "a").1 5 rfl

/-- C7 counterexample: the claim says registering the same channel twice
leaves the listener collection accounting for it twice, so a broadcast is
delivered once per registration. In the code the collection is a Python
set, so the second registration is absorbed: starting from a fresh watcher,
after registering channel 0 twice the set holds it once, and consuming one
well-formed line delivers the delta 1 a single time, not twice. -/
theorem C7_counterexample :
    (add_listener (add_listener c7Start 0 0) 0 0).listeners = [0] ∧
    ∃ stF, consumeBatch (add_listener (add_listener c7Start 0 0) 0 0)
        [some (recToJson ⟨1, 2, 3⟩)] = .ok stF ∧
      stF.queues 0 = [(1 : Int)] := by
  refine ⟨rfl, _, rfl, rfl⟩

/-- C7 amended: registration into the Python listener set deduplicates: a
second registration of the same channel leaves the set unchanged, and a
subsequent broadcast delivers exactly one value to that channel, however
many times it was registered (each registration call does still run its own
backlog check). -/
theorem C7_amended_registration_dedup (st : WatcherState) (ch : Nat)
    (k1 k2 : Int) (hnd : st.listeners.Nodup) :
    ((add_listener (add_listener st ch k1) ch k2).listeners
        = (add_listener st ch k1).listeners) ∧
    ∀ n : Nat,
      (broadcast (add_listener (add_listener st ch k1) ch k2) n).queues ch
        = (add_listener (add_listener st ch k1) ch k2).queues ch
          ++ [(n : Int)] := by
  constructor
  · rw [add_listener_listeners (add_listener st ch k1) ch k2,
      if_pos (mem_add_listener st ch k1)]
  · intro n
    exact broadcast_queues_mem _ n ch
      (add_listener_nodup _ ch k2 (add_listener_nodup st ch k1 hnd))
      (mem_add_listener _ ch k2)

theorem C7_amended_registration_dedup_witness :
    (add_listener (add_listener wTest 0 0) 0 0).listeners
        = (add_listener wTest 0 0).listeners ∧
    (broadcast (add_listener (add_listener wTest 0 0) 0 0) 4).queues 0
        = (add_listener (add_listener wTest 0 0) 0 0).queues 0
          ++ [(4 : Int)] := by
  have h := C7_amended_registration_dedup wTest 0 0 0 (by decide)
  exact ⟨h.1, h.2 4⟩

/-- C8: the wait for the next chunk, which the caller wraps in a timeout,
resolves to the distinct timeout signal — never equal to any data
delivery — when no delta arrives inside the window, and on delivery of a
positive delta count c within bounds it returns exactly the last c records
of the store at that moment. -/
theorem C8_wait_timeout_or_tail (w : WatcherState) (delivery : Option Int) :
    (delivery = none →
      await_next_chunk w delivery = .timeout ∧
      ∀ recs, ChunkResult.timeout ≠ ChunkResult.data recs) ∧
    (∀ c : Int, delivery = some c → 0 < c → c.toNat ≤ w.data_entries →
      w.data_entries ≤ w.data.length →
      await_next_chunk w delivery
          = .data ((storeSlice w).drop (w.data_entries - c.toNat)) ∧
      ((storeSlice w).drop (w.data_entries - c.toNat)).length = c.toNat) := by
  constructor
  · intro h
    subst h
    exact ⟨rfl, fun recs hc => ChunkResult.noConfusion hc⟩
  · intro c hd hpos hle hcap
    subst hd
    have hlen : (storeSlice w).length = w.data_entries := by
      unfold storeSlice
      rw [List.length_take]
      omega
    constructor
    · show ChunkResult.data (pySliceFrom (storeSlice w) (-c)) = _
      unfold pySliceFrom
      rw [if_neg (by omega), neg_neg, hlen]
    · rw [List.length_drop, hlen]
      omega

theorem C8_wait_timeout_or_tail_witness :
    await_next_chunk wTest none = .timeout ∧
    await_next_chunk wTest (some 1) = .data [⟨2, 20, 6⟩] := by
  constructor
  · exact ((C8_wait_timeout_or_tail wTest none).1 rfl).1
  · exact ((C8_wait_timeout_or_tail wTest (some 1)).2 1 rfl (by decide)
      (by decide) (by decide)).1

/-- C9: the watcher-loop invariant: if the notification counter equals the
number of stored records before a batch, and the batch is consumed without
an escaping exception, the equality holds again afterwards — every line
contributes to _item_count exactly when it stores a record. -/
theorem C9_counter_matches_store (st : WatcherState)
    (batch : List (Option JVal)) (stF : WatcherState)
    (hsync : st.item_count = st.data_entries)
    (h : consumeBatch st batch = .ok stF) :
    stF.item_count = stF.data_entries := by
  unfold consumeBatch at h
  split at h
  · exact absurd h (by simp)
  · next stM n hpl =>
    simp only [Except.ok.injEq] at h
    obtain ⟨_, _, hic, hde, _⟩ := processLines_ok hpl
    rw [← h]
    split
    · show stM.item_count + n = stM.data_entries
      omega
    · show stM.item_count + n = stM.data_entries
      omega

theorem C9_counter_matches_store_witness :
    c4Final.item_count = c4Final.data_entries :=
  C9_counter_matches_store wTest c4Batch c4Final rfl rfl

/-- C10: every value that any operation ever enqueues into a listener
channel is strictly positive: registration with a non-negative from_offset
preserves queue positivity (it enqueues item_count - from_offset only when
from_offset is strictly below item_count), and so does every batch
consumption, whether it completes or dies on an exception (a broadcast
pushes its count only when it is positive). -/
theorem C10_all_deltas_positive (st : WatcherState) :
    (∀ (ch : Nat) (k : Int), 0 ≤ k → AllPos st →
      AllPos (add_listener st ch k)) ∧
    (∀ batch stF, AllPos st → consumeBatch st batch = .ok stF →
      AllPos stF) ∧
    (∀ batch stE, AllPos st → consumeBatch st batch = .error stE →
      AllPos stE) := by
  refine ⟨?_, ?_, ?_⟩
  · intro ch k _hk hpos
    unfold add_listener
    dsimp only
    split
    · next hlt =>
      intro c v hv
      rcases (show v ∈ putNowait ((st.item_count : Int) - k) st.queues ch c
          from hv) with hv2
      unfold putNowait at hv2
      by_cases hc : c = ch
      · rw [if_pos hc] at hv2
        rcases List.mem_append.mp hv2 with h1 | h2
        · exact hpos c v h1
        · rw [List.mem_singleton.mp h2]
          omega
      · rw [if_neg hc] at hv2
        exact hpos c v hv2
    · exact hpos
  · intro batch stF hpos h
    unfold consumeBatch at h
    split at h
    · exact absurd h (by simp)
    · next stM n hpl =>
      simp only [Except.ok.injEq] at h
      have hq : stM.queues = st.queues := (processLines_ok hpl).2.1
      rw [← h]
      split
      · next hn =>
        intro c v hv
        rcases mem_foldl_putNowait _ _ _ _ v hv with h1 | h2
        · rw [show ({ stM with item_count := stM.item_count + n } :
              WatcherState).queues = st.queues from hq] at h1
          exact hpos c v h1
        · rw [h2]
          exact_mod_cast hn
      · intro c v hv
        rw [show ({ stM with item_count := stM.item_count + n } :
            WatcherState).queues = st.queues from hq] at hv
        exact hpos c v hv
  · intro batch stE hpos h
    unfold consumeBatch at h
    split at h
    · next hpl =>
      simp only [Except.error.injEq] at h
      subst h
      intro c v hv
      rw [(processLines_error hpl).2.1] at hv
      exact hpos c v hv
    · exact absurd h (by simp)

theorem C10_all_deltas_positive_witness :
    AllPos (add_listener wTest 5 0) :=
  (C10_all_deltas_positive wTest).1 5 0 (by decide)
    (fun ch v hv => absurd hv (List.not_mem_nil v))

end SsxOnline
